import Mathlib

/-!
Segment set of a log-structured partition store: a shallow embedding of
`src/v/storage/segment_set.cc`.

* A segment handle is modelled by the five observations the file makes on it:
  `offsets().base_offset`, `offsets().dirty_offset`, `index().base_timestamp()`,
  `index().max_timestamp()` and `empty()`.  `model::offset` and
  `model::timestamp` are 64-bit signed integers that are only ever compared,
  so they are modelled by `Int`.
* The container `_handles` is a `List segment`; an iterator is a position
  `0 ≤ p ≤ length`, the position `length` being `end()`.
* Dereferencing a position outside `[0, length)` and stepping back from
  `begin()` are undefined in the source; the model makes them `none`.
-/

namespace storage

/-- The observations `segment_set.cc` makes on a segment handle.  The member `empty()`
is defined outside that file, so it is an observation of its own here. -/
structure segment where
  base_offset : Int
  dirty_offset : Int
  base_timestamp : Int
  max_timestamp : Int
  empty : Bool
  deriving DecidableEq

/-- The two needle types the lookup template is instantiated with. -/
inductive Needle where
  | offset (o : Int)
  | timestamp (t : Int)
  deriving DecidableEq

/-- The overload `segment_ordering::operator()(seg1, seg2)`:
`seg1->offsets().base_offset < seg2->offsets().base_offset`. -/
def segment_ordering.seg_seg (seg1 seg2 : segment) : Bool :=
  decide (seg1.base_offset < seg2.base_offset)

/-- The overloads `segment_ordering::operator()(seg, model::offset)` and
`segment_ordering::operator()(seg, model::timestamp)`, selected by the needle type. -/
def segment_ordering.seg_needle (seg : segment) : Needle → Bool
  | Needle.offset value => decide (seg.dirty_offset < value)
  | Needle.timestamp value => decide (seg.max_timestamp < value)

/-- The two overloads of `needle_in_range::operator()`, applied to the segment the
iterator points at. -/
def needle_in_range (s : segment) : Needle → Bool
  | Needle.offset o =>
    if s.empty then false
    else decide (o ≤ s.dirty_offset) && decide (o ≥ s.base_offset)
  | Needle.timestamp t =>
    if s.empty then false
    else decide (t ≤ s.max_timestamp) && decide (t ≥ s.base_timestamp)

/-- The loop of `std::lower_bound(first, first + len, needle, segment_ordering{})`:
halve `len` until it is zero.  The first argument bounds the number of iterations;
`len` strictly decreases in every iteration, so `len` iterations are always enough
(`lower_bound_loop_some`).  Reading a position outside the container yields `none`. -/
def lower_bound_loop (xs : List segment) (needle : Needle) : Nat → Nat → Nat → Option Nat
  | 0, first, len => if len = 0 then some first else none
  | fuel + 1, first, len =>
    if len = 0 then some first
    else
      let half := len / 2
      let middle := first + half
      match xs[middle]? with
      | none => none
      | some s =>
        if segment_ordering.seg_needle s needle then
          lower_bound_loop xs needle fuel (middle + 1) (len - half - 1)
        else
          lower_bound_loop xs needle fuel first half

/-- The call `std::lower_bound(begin, end, needle, segment_ordering{})` over the whole
container. -/
def std_lower_bound (xs : List segment) (needle : Needle) : Option Nat :=
  lower_bound_loop xs needle xs.length 0 xs.length

/-- The iterator step `std::prev(it)`; undefined at `begin()`. -/
def std_prev (it : Nat) : Option Nat :=
  if it = 0 then none else some (it - 1)

/-- The function template `segments_lower_bound(begin, end, needle)` with
`begin = 0` and `end = xs.length`. -/
def segments_lower_bound (xs : List segment) (needle : Needle) : Option Nat :=
  let begin_ := 0
  let end_ := xs.length
  if end_ - begin_ = 0 then some end_
  else
    (std_lower_bound xs needle).bind fun it0 =>
    (if it0 = end_ then std_prev it0 else some it0).bind fun it1 =>
    xs[it1]?.bind fun s1 =>
    if needle_in_range s1 needle then some it1
    else
      (if it1 - begin_ > 0 then std_prev it1 else some it1).bind fun it2 =>
      xs[it2]?.bind fun s2 =>
      if needle_in_range s2 needle then some it2
      else some end_

/-- Both `segment_set::lower_bound(model::offset)` and its `const` overload. -/
def segment_set.lower_bound_offset (handles : List segment) (offset : Int) : Option Nat :=
  segments_lower_bound handles (Needle.offset offset)

/-- The mutable `segment_set::lower_bound(model::timestamp)`: the plain binary search. -/
def segment_set.lower_bound_timestamp (handles : List segment) (needle : Int) : Option Nat :=
  std_lower_bound handles (Needle.timestamp needle)

/-- The overload `segment_set::lower_bound(model::timestamp) const`. -/
def segment_set.lower_bound_timestamp_const (handles : List segment) (needle : Int) :
    Option Nat :=
  segments_lower_bound handles (Needle.timestamp needle)

/-- One insertion step of `std::sort` on an ordered prefix: the new element goes
before the first element it compares less than. -/
def ordered_insert (s : segment) : List segment → List segment
  | [] => [s]
  | t :: ts =>
    if segment_ordering.seg_seg s t then s :: t :: ts
    else t :: ordered_insert s ts

/-- The call `std::sort(_handles.begin(), _handles.end(), segment_ordering{})`, as the
insertion sort the standard library runs on short ranges.  The standard only fixes
that the result is a permutation ordered by the comparator; the order of members
with equal `base_offset` is unspecified and no result below relies on it. -/
def std_sort (segs : List segment) : List segment :=
  segs.foldl (fun acc s => ordered_insert s acc) []

/-- The constructor `segment_set::segment_set(underlying_t segs)`. -/
def segment_set.construct (segs : List segment) : List segment :=
  std_sort segs

/-- The member `segment_set::add(h)`; `none` is the fatal `vassert` path that
terminates the process. -/
def segment_set.add (handles : List segment) (h : segment) : Option (List segment) :=
  match handles.getLast? with
  | some back =>
    if h.base_offset > back.dirty_offset then some (handles ++ [h]) else none
  | none => some (handles ++ [h])

/-- The member `segment_set::pop_back()`; undefined (`none`) on an empty container. -/
def segment_set.pop_back (handles : List segment) : Option (List segment) :=
  if handles.isEmpty then none else some handles.dropLast

/-- The member `segment_set::pop_front()`; undefined (`none`) on an empty container. -/
def segment_set.pop_front (handles : List segment) : Option (List segment) :=
  match handles with
  | [] => none
  | _ :: rest => some rest

/-- Collection invariant 1: strictly ascending by `base_offset`. -/
def ascending_base (xs : List segment) : Prop :=
  xs.Chain' (fun a b => a.base_offset < b.base_offset)

/-- Collection invariant 2: `base_offset(i+1) > dirty_offset(i)` for adjacent members. -/
def non_overlap (xs : List segment) : Prop :=
  xs.Chain' (fun a b => a.dirty_offset < b.base_offset)

/-- Every member has `dirty_offset ≥ base_offset - 1` (equality for a segment without
records). -/
def dirty_ge_pred_base (xs : List segment) : Prop :=
  ∀ s ∈ xs, s.base_offset - 1 ≤ s.dirty_offset

instance (xs : List segment) : Decidable (ascending_base xs) :=
  inferInstanceAs (Decidable (xs.Chain' _))

instance (xs : List segment) : Decidable (non_overlap xs) :=
  inferInstanceAs (Decidable (xs.Chain' _))

instance (xs : List segment) : Decidable (dirty_ge_pred_base xs) :=
  inferInstanceAs (Decidable (∀ s ∈ xs, _))

/-- The scenario of the specification: A=[0,99]/ts[0,9], B=[100,199]/ts[10,19],
C=[300,399]/ts[30,39]. -/
def scenario : List segment :=
  [ ⟨0, 99, 0, 9, false⟩, ⟨100, 199, 10, 19, false⟩, ⟨300, 399, 30, 39, false⟩ ]

/-- The comparator applied at a position; `false` outside the container. -/
def comp_at (xs : List segment) (needle : Needle) (i : Nat) : Bool :=
  match xs[i]? with
  | some s => segment_ordering.seg_needle s needle
  | none => false

/-- The members the comparator accepts form a prefix of the container. -/
def partitioned (xs : List segment) (needle : Needle) : Prop :=
  ∀ i j, i ≤ j → j < xs.length → comp_at xs needle j = true → comp_at xs needle i = true

/-- Timestamp ranges in ascending order: `max_timestamp` does not decrease along the
container. -/
def max_timestamp_non_decreasing (xs : List segment) : Prop :=
  xs.Chain' (fun a b => a.max_timestamp ≤ b.max_timestamp)

/-- Timestamp ranges do not overlap: `base_timestamp(i+1) > max_timestamp(i)` for
adjacent members. -/
def timestamp_non_overlap (xs : List segment) : Prop :=
  xs.Chain' (fun a b => a.max_timestamp < b.base_timestamp)

/-- A container whose only member is a segment without records, starting at offset 10
(`dirty_offset = base_offset - 1`). -/
def empty_tail : List segment := [ ⟨10, 9, 0, 0, true⟩ ]

/-- A segment starting at offset 10 as well. -/
def same_base : segment := ⟨10, 20, 0, 5, false⟩

/-- The first position `segments_lower_bound` examines: the result of the binary
search, stepped back once when it is `end()`. -/
def first_candidate (xs : List segment) (needle : Needle) : Option Nat :=
  (std_lower_bound xs needle).bind fun it0 =>
  if it0 = xs.length then std_prev it0 else some it0

/-- Two segments in offset order, the second of which reports a `dirty_offset` far
below its `base_offset`. -/
def stale_dirty : List segment := [ ⟨0, 99, 0, 9, false⟩, ⟨100, 20, 10, 19, false⟩ ]

/-- Two segments in offset order whose timestamps run backwards. -/
def backwards_timestamps : List segment :=
  [ ⟨0, 99, 50, 60, false⟩, ⟨100, 199, 10, 20, false⟩ ]

/-- Two segments in timestamp order, the first without records. -/
def empty_head : List segment := [ ⟨0, -1, 40, 50, true⟩, ⟨0, 99, 60, 70, false⟩ ]

/-- The stream insertion `operator<<(std::ostream&, const segment_set&)`, as the text
appended to an empty stream.  The rendering of a single handle is defined outside
`segment_set.cc` and is a parameter. -/
def segment_set.render (render_handle : segment → String) (s : List segment) : String :=
  let o := "\x7bsize: " ++ Nat.repr s.length ++ ", ["
  let o := s.foldl (fun o p => o ++ render_handle p) o
  o ++ "]\x7d"

/-- The renderings of the members concatenated front to back, with no separator. -/
def segment_set.members_text (render_handle : segment → String) : List segment → String
  | [] => ""
  | p :: rest => render_handle p ++ segment_set.members_text render_handle rest

end storage

namespace s3

/-- The enumeration `error_outcome`. -/
inductive error_outcome where
  | none
  | retry
  | retry_slowdown
  | fail
  | notfound
  deriving DecidableEq

/-- The conversion `static_cast<int>(e)`: the enumerators count up from `none = 0`. -/
def error_outcome.to_int : error_outcome → Int
  | error_outcome.none => 0
  | error_outcome.retry => 1
  | error_outcome.retry_slowdown => 2
  | error_outcome.fail => 3
  | error_outcome.notfound => 4

/-- The member `error_outcome_category::name`. -/
def error_outcome_category.name : String := "s3::error_outcome"

/-- The member `error_outcome_category::message(int c)`: a switch on the value of `c`
read as an `error_outcome`. -/
def error_outcome_category.message (c : Int) : String :=
  if c = error_outcome.none.to_int then "No error"
  else if c = error_outcome.retry.to_int then "Retryable error"
  else if c = error_outcome.retry_slowdown.to_int then "Cloud service asked us to slow down"
  else if c = error_outcome.fail.to_int then "Non retriable error"
  else if c = error_outcome.notfound.to_int then "Key not found error"
  else "Undefined error_outcome encountered"

/-- A `std::error_code`: an integer value and the name of its category. -/
structure error_code where
  value : Int
  category : String
  deriving DecidableEq

/-- The function `make_error_code(error_outcome e)`. -/
def make_error_code (e : error_outcome) : error_code :=
  ⟨e.to_int, error_outcome_category.name⟩

end s3

namespace storage

/-! ## The binary search -/

theorem comp_at_of_get {xs : List segment} {needle : Needle} {i : Nat} {s : segment}
    (h : xs[i]? = some s) : comp_at xs needle i = segment_ordering.seg_needle s needle := by
  simp [comp_at, h]

/-- The loop of the binary search always ends inside its window, reading only valid
positions; on a partitioned container it ends at the partition point. -/
theorem lower_bound_loop_some (xs : List segment) (needle : Needle) :
    ∀ (fuel first len : Nat), len ≤ fuel → first + len ≤ xs.length →
      ∃ p, lower_bound_loop xs needle fuel first len = some p ∧ first ≤ p ∧ p ≤ first + len ∧
        (partitioned xs needle →
          (∀ i, first ≤ i → i < p → comp_at xs needle i = true) ∧
          (p < first + len → comp_at xs needle p = false)) := by
  intro fuel
  induction fuel with
  | zero =>
    intro first len hl _
    have : len = 0 := by omega
    subst this
    exact ⟨first, by simp [lower_bound_loop], le_refl _, by omega,
      fun _ => ⟨fun i h1 h2 => by omega, fun h => by omega⟩⟩
  | succ fuel ih =>
    intro first len hl hb
    by_cases h0 : len = 0
    · subst h0
      exact ⟨first, by simp [lower_bound_loop], le_refl _, by omega,
        fun _ => ⟨fun i h1 h2 => by omega, fun h => by omega⟩⟩
    · have hmid : first + len / 2 < xs.length := by omega
      obtain ⟨s, hs⟩ : ∃ s, xs[first + len / 2]? = some s :=
        ⟨xs[first + len / 2], List.getElem?_eq_getElem hmid⟩
      have hc := @comp_at_of_get xs needle _ _ hs
      by_cases hcmp : segment_ordering.seg_needle s needle = true
      · obtain ⟨p, hp, hlo, hhi, hpart⟩ :=
          ih (first + len / 2 + 1) (len - len / 2 - 1) (by omega) (by omega)
        refine ⟨p, ?_, by omega, by omega, fun hP => ?_⟩
        · simp [lower_bound_loop, h0, hs, hcmp, hp]
        · obtain ⟨h1, h2⟩ := hpart hP
          refine ⟨fun i hi1 hi2 => ?_, fun hlt => h2 (by omega)⟩
          by_cases hle : i ≤ first + len / 2
          · exact hP i (first + len / 2) hle hmid (by rw [hc]; exact hcmp)
          · exact h1 i (by omega) hi2
      · obtain ⟨p, hp, hlo, hhi, hpart⟩ := ih first (len / 2) (by omega) (by omega)
        refine ⟨p, ?_, hlo, by omega, fun hP => ?_⟩
        · simp [lower_bound_loop, h0, hs, hcmp, hp]
        · obtain ⟨h1, h2⟩ := hpart hP
          refine ⟨h1, fun hlt => ?_⟩
          by_cases heq : p = first + len / 2
          · rw [heq, hc]; simpa using hcmp
          · exact h2 (by omega)

/-- The binary search over the whole container returns a position `p ≤ length`; on a
partitioned container every member before `p` compares less than the needle and the
member at `p`, if any, does not. -/
theorem std_lower_bound_some (xs : List segment) (needle : Needle) :
    ∃ p, std_lower_bound xs needle = some p ∧ p ≤ xs.length ∧
      (partitioned xs needle →
        (∀ i, i < p → comp_at xs needle i = true) ∧
        (p < xs.length → comp_at xs needle p = false)) := by
  obtain ⟨p, hp, _, hhi, hpart⟩ :=
    lower_bound_loop_some xs needle xs.length 0 xs.length (le_refl _) (by omega)
  refine ⟨p, hp, by omega, fun hP => ?_⟩
  obtain ⟨h1, h2⟩ := hpart hP
  exact ⟨fun i hi => h1 i (Nat.zero_le _) hi, fun hlt => h2 (by omega)⟩

/-- On a partitioned container the binary search returns the first position whose
member does not compare less than the needle. -/
theorem std_lower_bound_eq_of_partition (xs : List segment) (needle : Needle) (k : Nat)
    (hk : k ≤ xs.length) (hbelow : ∀ i, i < k → comp_at xs needle i = true)
    (hat : k < xs.length → comp_at xs needle k = false) (hP : partitioned xs needle) :
    std_lower_bound xs needle = some k := by
  obtain ⟨p, hp, hple, hpart⟩ := std_lower_bound_some xs needle
  obtain ⟨h1, h2⟩ := hpart hP
  have hpk : p = k := by
    rcases Nat.lt_trichotomy p k with h | h | h
    · have := h2 (by omega); rw [hbelow p h] at this; cases this
    · exact h
    · have := h1 k h; rw [hat (by omega)] at this; cases this
  rw [hp, hpk]

/-! ## The corrected lookup -/

/-- The lookup always returns: either `end()`, or a valid position whose member
passes the containment check. -/
theorem segments_lower_bound_some (xs : List segment) (needle : Needle) :
    ∃ p, segments_lower_bound xs needle = some p ∧
      (p = xs.length ∨ ∃ s, xs[p]? = some s ∧ needle_in_range s needle = true) := by
  by_cases hlen : xs.length = 0
  · exact ⟨xs.length, by simp [segments_lower_bound, hlen], Or.inl rfl⟩
  · obtain ⟨p0, hp0, hp0le, _⟩ := std_lower_bound_some xs needle
    -- the first candidate
    obtain ⟨it1, hit1, hit1lt⟩ : ∃ it1,
        (if p0 = xs.length then std_prev p0 else some p0) = some it1 ∧ it1 < xs.length := by
      by_cases he : p0 = xs.length
      · exact ⟨p0 - 1, by simp [he, std_prev, hlen], by omega⟩
      · exact ⟨p0, by simp [he], by omega⟩
    have hs1 : xs[it1]? = some xs[it1] := List.getElem?_eq_getElem hit1lt
    by_cases hin1 : needle_in_range xs[it1] needle = true
    · refine ⟨it1, ?_, Or.inr ⟨xs[it1], hs1, hin1⟩⟩
      simp [segments_lower_bound, hlen, hp0, hit1, hs1, hin1]
    · -- the predecessor, when there is one
      obtain ⟨it2, hit2, hit2lt⟩ : ∃ it2,
          (if 0 < it1 then std_prev it1 else some it1) = some it2 ∧ it2 < xs.length := by
        by_cases hz : 0 < it1
        · exact ⟨it1 - 1, by simp [hz, std_prev]; omega, by omega⟩
        · exact ⟨it1, by simp [hz], hit1lt⟩
      have hs2 : xs[it2]? = some xs[it2] := List.getElem?_eq_getElem hit2lt
      by_cases hin2 : needle_in_range xs[it2] needle = true
      · refine ⟨it2, ?_, Or.inr ⟨xs[it2], hs2, hin2⟩⟩
        simp [segments_lower_bound, hlen, hp0, hit1, hs1, hin1, hit2, hs2, hin2]
      · refine ⟨xs.length, ?_, Or.inl rfl⟩
        simp [segments_lower_bound, hlen, hp0, hit1, hs1, hin1, hit2, hs2, hin2]

/-- When no member passes the containment check the lookup returns `end()`. -/
theorem segments_lower_bound_end (xs : List segment) (needle : Needle)
    (h : ∀ s ∈ xs, needle_in_range s needle = false) :
    segments_lower_bound xs needle = some xs.length := by
  obtain ⟨p, hp, hcase⟩ := segments_lower_bound_some xs needle
  rcases hcase with rfl | ⟨s, hs, hin⟩
  · exact hp
  · rw [h s (List.getElem?_mem hs)] at hin; cases hin

/-- On a partitioned container, a member that passes the containment check, does not
compare less than the needle, and is preceded only by members that do, is the one
the lookup returns. -/
theorem segments_lower_bound_found (xs : List segment) (needle : Needle) (i : Nat) (s : segment)
    (hs : xs[i]? = some s) (hin : needle_in_range s needle = true)
    (hat : segment_ordering.seg_needle s needle = false)
    (hbelow : ∀ j, j < i → comp_at xs needle j = true) (hP : partitioned xs needle) :
    segments_lower_bound xs needle = some i := by
  have hi : i < xs.length := (List.getElem?_eq_some_iff.mp hs).1
  have hlb : std_lower_bound xs needle = some i :=
    std_lower_bound_eq_of_partition xs needle i (by omega) hbelow
      (fun _ => by rw [comp_at_of_get hs]; exact hat) hP
  have hlen : xs.length ≠ 0 := by omega
  have hne : i ≠ xs.length := by omega
  simp [segments_lower_bound, hlen, hlb, hne, hs, hin]

/-! ## Keys along a container -/

/-- Adjacent members of a chain are related. -/
theorem chain_adjacent {R : segment → segment → Prop} :
    ∀ {xs : List segment}, xs.Chain' R → ∀ {i : Nat} {a b : segment},
      xs[i]? = some a → xs[i + 1]? = some b → R a b
  | [], _, i, a, b, ha, _ => by simp at ha
  | [x], _, i, a, b, _, hb => by simp at hb
  | x :: y :: rest, h, 0, a, b, ha, hb => by
    simp at ha hb
    subst ha; subst hb
    exact (List.chain'_cons.mp h).1
  | x :: y :: rest, h, i + 1, a, b, ha, hb => by
    have ha2 : (y :: rest)[i]? = some a := by simpa using ha
    have hb2 : (y :: rest)[i + 1]? = some b := by simpa using hb
    exact chain_adjacent (List.chain'_cons.mp h).2 ha2 hb2

/-- A key that does not decrease between adjacent members does not decrease along the
container. -/
theorem key_mono (f : segment → Int) (xs : List segment)
    (h : xs.Chain' (fun a b => f a ≤ f b)) :
    ∀ (d i : Nat) (a b : segment), xs[i]? = some a → xs[i + d]? = some b → f a ≤ f b := by
  intro d
  induction d with
  | zero =>
    intro i a b ha hb
    rw [Nat.add_zero, ha] at hb
    cases hb
    exact le_refl _
  | succ d ih =>
    intro i a b ha hb
    have hlt : i + d < xs.length := by
      have := (List.getElem?_eq_some_iff.mp hb).1
      omega
    have hm : xs[i + d]? = some xs[i + d] := List.getElem?_eq_getElem hlt
    exact le_trans (ih i a _ ha hm) (chain_adjacent h hm hb)

/-- The same, for two positions in order. -/
theorem key_mono_le (f : segment → Int) (xs : List segment)
    (h : xs.Chain' (fun a b => f a ≤ f b)) {i j : Nat} {a b : segment} (hij : i ≤ j)
    (ha : xs[i]? = some a) (hb : xs[j]? = some b) : f a ≤ f b := by
  obtain ⟨d, rfl⟩ := Nat.exists_eq_add_of_le hij
  exact key_mono f xs h d i a b ha hb

/-- With non-overlap and `dirty_offset ≥ base_offset - 1`, `dirty_offset` does not
decrease along the container. -/
theorem dirty_mono_of_invariants :
    ∀ (xs : List segment), non_overlap xs → dirty_ge_pred_base xs →
      xs.Chain' (fun a b => a.dirty_offset ≤ b.dirty_offset)
  | [], _, _ => List.chain'_nil
  | [_], _, _ => List.chain'_singleton _
  | x :: y :: rest, h, hd => by
    have h2 := List.chain'_cons.mp h
    refine List.chain'_cons.mpr ⟨?_, ?_⟩
    · have hy := hd y (by simp)
      have hxy : x.dirty_offset < y.base_offset := h2.1
      omega
    · exact dirty_mono_of_invariants (y :: rest) h2.2
        (fun s hs => hd s (List.mem_cons_of_mem _ hs))

/-- A strictly ascending `base_offset` does not decrease along the container. -/
theorem base_mono_of_ascending (xs : List segment) (h : ascending_base xs) :
    xs.Chain' (fun a b => a.base_offset ≤ b.base_offset) :=
  List.Chain'.imp (fun _ _ hab => le_of_lt hab) h

/-- A container whose comparison key does not decrease is partitioned by every needle
on that key. -/
theorem partitioned_of_key_mono (hi : segment → Int) (v : Int) (needle : Needle)
    (hcmp : ∀ s, segment_ordering.seg_needle s needle = decide (hi s < v))
    (xs : List segment) (hM : xs.Chain' (fun a b => hi a ≤ hi b)) :
    partitioned xs needle := by
  intro i j hij hj hcj
  have hi_lt : i < xs.length := by omega
  have hsi : xs[i]? = some xs[i] := List.getElem?_eq_getElem hi_lt
  have hsj : xs[j]? = some xs[j] := List.getElem?_eq_getElem hj
  rw [comp_at_of_get hsj, hcmp] at hcj
  rw [comp_at_of_get hsi, hcmp]
  have hle := key_mono_le hi xs hM hij hsi hsj
  have : hi xs[j] < v := of_decide_eq_true hcj
  exact decide_eq_true (lt_of_le_of_lt hle this)

/-- The lookup on either axis: when the upper key `hi` does not decrease and every
member starts (`lo`) after its predecessor ends (`hi`), a member holding records whose
closed interval `[lo, hi]` contains the value is the one returned. -/
theorem segments_lower_bound_contains (hi lo : segment → Int) (v : Int) (needle : Needle)
    (hcmp : ∀ s, segment_ordering.seg_needle s needle = decide (hi s < v))
    (hrange : ∀ s, needle_in_range s needle =
      (!s.empty && (decide (v ≤ hi s) && decide (v ≥ lo s))))
    (xs : List segment) (hM : xs.Chain' (fun a b => hi a ≤ hi b))
    (hG : xs.Chain' (fun a b => hi a < lo b))
    (i : Nat) (S : segment) (hS : xs[i]? = some S) (hne : S.empty = false)
    (hlo : lo S ≤ v) (hhi : v ≤ hi S) :
    segments_lower_bound xs needle = some i := by
  have hi_lt : i < xs.length := (List.getElem?_eq_some_iff.mp hS).1
  refine segments_lower_bound_found xs needle i S hS ?_ ?_ ?_
    (partitioned_of_key_mono hi v needle hcmp xs hM)
  · rw [hrange]; simp [hne, hlo, hhi]
  · rw [hcmp]; exact decide_eq_false (not_lt.mpr hhi)
  · intro j hj
    have hsj : xs[j]? = some xs[j] := List.getElem?_eq_getElem (by omega)
    have hpred : xs[i - 1]? = some xs[i - 1] := List.getElem?_eq_getElem (by omega)
    have hS2 : xs[i - 1 + 1]? = some S := by
      have : i - 1 + 1 = i := by omega
      rw [this]; exact hS
    have h1 : hi xs[j] ≤ hi xs[i - 1] := key_mono_le hi xs hM (by omega) hsj hpred
    have h2 : hi xs[i - 1] < lo S := chain_adjacent hG hpred hS2
    rw [comp_at_of_get hsj, hcmp]
    exact decide_eq_true (by omega)

/-! ## Offset lookup -/

/-- C1: in a collection satisfying the invariants in which every member has
`dirty_offset ≥ base_offset - 1`, for a member `S` that holds records and an offset `o`
with `base_offset(S) ≤ o ≤ dirty_offset(S)`, `lower_bound(o)` returns the position
of `S`. -/
theorem lower_bound_offset_contains (xs : List segment) (i : Nat) (S : segment) (o : Int)
    (_hasc : ascending_base xs) (hno : non_overlap xs) (hd : dirty_ge_pred_base xs)
    (hS : xs[i]? = some S) (hne : S.empty = false)
    (hlo : S.base_offset ≤ o) (hhi : o ≤ S.dirty_offset) :
    segment_set.lower_bound_offset xs o = some i :=
  segments_lower_bound_contains (fun s => s.dirty_offset) (fun s => s.base_offset) o
    (Needle.offset o) (fun _ => rfl)
    (fun s => by cases hs : s.empty <;> simp [needle_in_range, hs])
    xs (dirty_mono_of_invariants xs hno hd) hno i S hS hne hlo hhi

/-- C1 on the scenario A=[0,99], B=[100,199], C=[300,399]: `lower_bound(50)` is A and
`lower_bound(150)` is B. -/
theorem lower_bound_offset_contains_witness :
    (ascending_base scenario ∧ non_overlap scenario ∧ dirty_ge_pred_base scenario) ∧
      segment_set.lower_bound_offset scenario 50 = some 0 ∧
      segment_set.lower_bound_offset scenario 150 = some 1 :=
  have hasc : ascending_base scenario := by simp [ascending_base, scenario]
  have hno : non_overlap scenario := by simp [non_overlap, scenario]
  have hd : dirty_ge_pred_base scenario := by simp [dirty_ge_pred_base, scenario]
  ⟨⟨hasc, hno, hd⟩,
    lower_bound_offset_contains scenario 0 ⟨0, 99, 0, 9, false⟩ 50 hasc hno hd rfl rfl
      (by decide) (by decide),
    lower_bound_offset_contains scenario 1 ⟨100, 199, 10, 19, false⟩ 150 hasc hno hd rfl rfl
      (by decide) (by decide)⟩

/-- In a collection satisfying the invariants with `dirty_offset ≥ base_offset - 1`, an
offset between the end of one member and the start of the next is contained in no
member. -/
theorem gap_not_contained (xs : List segment) (o : Int)
    (hasc : ascending_base xs) (hno : non_overlap xs) (hd : dirty_ge_pred_base xs)
    (i : Nat) (a b : segment) (ha : xs[i]? = some a) (hb : xs[i + 1]? = some b)
    (h1 : a.dirty_offset < o) (h2 : o < b.base_offset) :
    ∀ s ∈ xs, ¬ (s.base_offset ≤ o ∧ o ≤ s.dirty_offset) := by
  intro s hs ⟨hlo, hhi⟩
  obtain ⟨j, hj⟩ := List.mem_iff_getElem?.mp hs
  by_cases hji : j ≤ i
  · have := key_mono_le (fun s => s.dirty_offset) xs (dirty_mono_of_invariants xs hno hd)
      hji hj ha
    simp only at this
    omega
  · have := key_mono_le (fun s => s.base_offset) xs (base_mono_of_ascending xs hasc)
      (by omega : i + 1 ≤ j) hb hj
    simp only at this
    omega

/-- C2: `lower_bound(offset)` returns "not found" whenever no member holding records
has the offset in its closed interval `[base_offset, dirty_offset]`; in particular, in
a collection satisfying the invariants with `dirty_offset ≥ base_offset - 1`, for an
offset below the first member's `base_offset`, for an offset in a gap between
adjacent members, and for an offset above the last member's `dirty_offset`. -/
theorem lower_bound_offset_not_found (xs : List segment) (o : Int) :
    ((∀ s ∈ xs, s.empty = false → ¬ (s.base_offset ≤ o ∧ o ≤ s.dirty_offset)) →
      segment_set.lower_bound_offset xs o = some xs.length) ∧
    (ascending_base xs → non_overlap xs → dirty_ge_pred_base xs →
      (∀ first, xs.head? = some first → o < first.base_offset →
        segment_set.lower_bound_offset xs o = some xs.length) ∧
      (∀ i a b, xs[i]? = some a → xs[i + 1]? = some b →
        a.dirty_offset < o → o < b.base_offset →
        segment_set.lower_bound_offset xs o = some xs.length) ∧
      (∀ last, xs.getLast? = some last → last.dirty_offset < o →
        segment_set.lower_bound_offset xs o = some xs.length)) := by
  have key : (∀ s ∈ xs, s.empty = false → ¬ (s.base_offset ≤ o ∧ o ≤ s.dirty_offset)) →
      segment_set.lower_bound_offset xs o = some xs.length := by
    intro h
    refine segments_lower_bound_end xs (Needle.offset o) (fun s hs => ?_)
    cases he : s.empty
    · have := h s hs he
      simp only [needle_in_range, he]
      simp only [Bool.false_eq_true, if_false, Bool.and_eq_false_iff, decide_eq_false_iff_not]
      by_contra hcon
      push_neg at hcon
      exact this ⟨hcon.2, hcon.1⟩
    · simp [needle_in_range, he]
  refine ⟨key, fun hasc hno hd => ⟨?_, ?_, ?_⟩⟩
  · intro first hf hlt
    refine key (fun s hs _ hc => ?_)
    obtain ⟨j, hj⟩ := List.mem_iff_getElem?.mp hs
    have h0 : xs[0]? = some first := by
      cases xs with
      | nil => simp at hf
      | cons x rest => simpa using hf
    have := key_mono_le (fun s => s.base_offset) xs (base_mono_of_ascending xs hasc)
      (Nat.zero_le j) h0 hj
    simp only at this
    omega
  · intro i a b ha hb h1 h2
    exact key (fun s hs _ => gap_not_contained xs o hasc hno hd i a b ha hb h1 h2 s hs)
  · intro last hl hlt
    refine key (fun s hs _ hc => ?_)
    obtain ⟨j, hj⟩ := List.mem_iff_getElem?.mp hs
    have hjlt : j < xs.length := (List.getElem?_eq_some_iff.mp hj).1
    have hlast : xs[xs.length - 1]? = some last := by
      rw [List.getLast?_eq_getElem?] at hl; exact hl
    have := key_mono_le (fun s => s.dirty_offset) xs (dirty_mono_of_invariants xs hno hd)
      (by omega : j ≤ xs.length - 1) hj hlast
    simp only at this
    omega

/-- C2 on the scenario A=[0,99], B=[100,199], C=[300,399]: `lower_bound(250)` (in the
gap between B and C) and `lower_bound(999)` (past C) are not found. -/
theorem lower_bound_offset_not_found_witness :
    (ascending_base scenario ∧ non_overlap scenario ∧ dirty_ge_pred_base scenario) ∧
      segment_set.lower_bound_offset scenario 250 = some 3 ∧
      segment_set.lower_bound_offset scenario 999 = some 3 :=
  have hasc : ascending_base scenario := by simp [ascending_base, scenario]
  have hno : non_overlap scenario := by simp [non_overlap, scenario]
  have hd : dirty_ge_pred_base scenario := by simp [dirty_ge_pred_base, scenario]
  ⟨⟨hasc, hno, hd⟩,
    ((lower_bound_offset_not_found scenario 250).2 hasc hno hd).2.1 1
      ⟨100, 199, 10, 19, false⟩ ⟨300, 399, 30, 39, false⟩ rfl rfl (by decide) (by decide),
    ((lower_bound_offset_not_found scenario 999).2 hasc hno hd).2.2
      ⟨300, 399, 30, 39, false⟩ rfl (by decide)⟩

/-! ## Timestamp lookup -/

/-- C3: on the scenario with timestamp ranges ts[0,9], ts[10,19], ts[30,39] and the
needle 25, the mutable `lower_bound(timestamp)` returns the position of the third
member while the `const` overload returns `end()`: the two forms do not return the
same position. -/
theorem lower_bound_timestamp_forms_differ :
    segment_set.lower_bound_timestamp scenario 25 = some 2 ∧
      segment_set.lower_bound_timestamp_const scenario 25 = some 3 ∧
      segment_set.lower_bound_timestamp scenario 25 ≠
        segment_set.lower_bound_timestamp_const scenario 25 := by
  decide

/-- C8: in a collection whose timestamp ranges are ascending and do not overlap, for a
member `S` that holds records and a timestamp `t` with
`base_timestamp(S) ≤ t ≤ max_timestamp(S)`, the `const` `lower_bound(t)` returns the
position of `S`. -/
theorem lower_bound_timestamp_const_contains (xs : List segment) (i : Nat) (S : segment)
    (t : Int) (hmono : max_timestamp_non_decreasing xs) (hno : timestamp_non_overlap xs)
    (hS : xs[i]? = some S) (hne : S.empty = false)
    (hlo : S.base_timestamp ≤ t) (hhi : t ≤ S.max_timestamp) :
    segment_set.lower_bound_timestamp_const xs t = some i :=
  segments_lower_bound_contains (fun s => s.max_timestamp) (fun s => s.base_timestamp) t
    (Needle.timestamp t) (fun _ => rfl)
    (fun s => by cases hs : s.empty <;> simp [needle_in_range, hs])
    xs hmono hno i S hS hne hlo hhi

/-- C8 on the scenario A ts[0,9], B ts[10,19], C ts[30,39]: `lower_bound(timestamp=15)`
is B. -/
theorem lower_bound_timestamp_const_contains_witness :
    (max_timestamp_non_decreasing scenario ∧ timestamp_non_overlap scenario) ∧
      segment_set.lower_bound_timestamp_const scenario 15 = some 1 :=
  have hmono : max_timestamp_non_decreasing scenario := by
    simp [max_timestamp_non_decreasing, scenario]
  have hno : timestamp_non_overlap scenario := by simp [timestamp_non_overlap, scenario]
  ⟨⟨hmono, hno⟩,
    lower_bound_timestamp_const_contains scenario 1 ⟨100, 199, 10, 19, false⟩ 15 hmono hno
      rfl rfl (by decide) (by decide)⟩

/-! ## Empty segments and totality -/

/-- C9: for every collection and every offset, `lower_bound(offset)` returns either
`end()` or the position of a member whose `empty()` is false. -/
theorem lower_bound_offset_never_empty (xs : List segment) (o : Int) :
    ∃ p, segment_set.lower_bound_offset xs o = some p ∧
      (p = xs.length ∨ ∃ s, xs[p]? = some s ∧ s.empty = false) := by
  obtain ⟨p, hp, hcase⟩ := segments_lower_bound_some xs (Needle.offset o)
  refine ⟨p, hp, hcase.imp id ?_⟩
  rintro ⟨s, hs, hin⟩
  refine ⟨s, hs, ?_⟩
  cases he : s.empty
  · rfl
  · simp [needle_in_range, he] at hin

/-- C10: for every collection and every offset or timestamp needle,
`segments_lower_bound` returns a position: no step reads outside the collection or
steps back from `begin()`, and the result is `end()` or a valid index. -/
theorem segments_lower_bound_total (xs : List segment) (needle : Needle) :
    ∃ p, segments_lower_bound xs needle = some p ∧ p ≤ xs.length ∧
      (p ≠ xs.length → ∃ s, xs[p]? = some s) := by
  obtain ⟨p, hp, hcase⟩ := segments_lower_bound_some xs needle
  rcases hcase with rfl | ⟨s, hs, _⟩
  · exact ⟨xs.length, hp, le_refl _, fun h => absurd rfl h⟩
  · exact ⟨p, hp, le_of_lt (List.getElem?_eq_some_iff.mp hs).1, fun _ => ⟨s, hs⟩⟩

/-- C10 on the empty collection, on a single member and on the scenario. -/
theorem segments_lower_bound_total_witness :
    segments_lower_bound [] (Needle.offset 5) = some 0 ∧
      segments_lower_bound [⟨0, 99, 0, 9, false⟩] (Needle.timestamp 50) = some 1 ∧
      ∃ p, segments_lower_bound scenario (Needle.offset 150) = some p ∧ p ≤ scenario.length ∧
        (p ≠ scenario.length → ∃ s, scenario[p]? = some s) :=
  ⟨by decide, by decide, segments_lower_bound_total scenario (Needle.offset 150)⟩

/-! ## Mutation -/

/-- C4: `add(h)` takes the fatal path exactly when the collection has a last member
and `base_offset(h) ≤ dirty_offset(last)`; in every other case it succeeds and the
result is the old sequence followed by `h`. -/
theorem add_fatal_iff (xs : List segment) (h : segment) :
    (segment_set.add xs h = none ↔
      ∃ back, xs.getLast? = some back ∧ h.base_offset ≤ back.dirty_offset) ∧
    ((¬ ∃ back, xs.getLast? = some back ∧ h.base_offset ≤ back.dirty_offset) →
      segment_set.add xs h = some (xs ++ [h])) := by
  unfold segment_set.add
  cases hl : xs.getLast? with
  | none => simp
  | some back =>
    by_cases hgt : h.base_offset > back.dirty_offset
    · simp [hgt, not_le.mpr hgt]
    · simp [hgt, not_lt.mp hgt]

/-- C4 on the scenario: a segment starting at 399 is refused, one starting at 400 is
appended, and anything is appended to the empty collection. -/
theorem add_fatal_iff_witness :
    segment_set.add scenario ⟨399, 500, 40, 49, false⟩ = none ∧
      segment_set.add scenario ⟨400, 500, 40, 49, false⟩ =
        some (scenario ++ [⟨400, 500, 40, 49, false⟩]) ∧
      segment_set.add [] ⟨0, 99, 0, 9, false⟩ = some [⟨0, 99, 0, 9, false⟩] :=
  ⟨(add_fatal_iff scenario ⟨399, 500, 40, 49, false⟩).1.mpr
      ⟨⟨300, 399, 30, 39, false⟩, rfl, by decide⟩,
    (add_fatal_iff scenario ⟨400, 500, 40, 49, false⟩).2 (by
      rintro ⟨back, hb, hle⟩
      cases hb
      revert hle
      decide),
    by decide⟩

/-- C5, as stated, fails: the collection holding one segment without records
(`base_offset = 10`, `dirty_offset = 9`) satisfies both invariants, a segment with
`base_offset = 10` passes the check of `add`, and the result is not strictly
ascending by `base_offset`. -/
theorem add_breaks_strict_ascent :
    ascending_base empty_tail ∧ non_overlap empty_tail ∧ dirty_ge_pred_base empty_tail ∧
      (∀ back, empty_tail.getLast? = some back → same_base.base_offset > back.dirty_offset) ∧
      segment_set.add empty_tail same_base = some (empty_tail ++ [same_base]) ∧
      non_overlap (empty_tail ++ [same_base]) ∧
      ¬ ascending_base (empty_tail ++ [same_base]) := by
  refine ⟨by simp [ascending_base, empty_tail], by simp [non_overlap, empty_tail],
    by simp [dirty_ge_pred_base, empty_tail], ?_, by decide,
    by simp [non_overlap, empty_tail, same_base],
    by simp [ascending_base, empty_tail, same_base]⟩
  intro back hb
  cases hb
  decide

/-- C5, amended: on a collection satisfying both invariants, for a segment `h` with
`base_offset(h) > dirty_offset(last)`, `add(h)` succeeds and the result satisfies the
non-overlap invariant again; it is strictly ascending by `base_offset` again when the
last member has `base_offset ≤ dirty_offset`. -/
theorem add_preserves_invariants (xs : List segment) (h : segment)
    (hasc : ascending_base xs) (hno : non_overlap xs)
    (hgt : ∀ back, xs.getLast? = some back → h.base_offset > back.dirty_offset) :
    segment_set.add xs h = some (xs ++ [h]) ∧ non_overlap (xs ++ [h]) ∧
      ((∀ back, xs.getLast? = some back → back.base_offset ≤ back.dirty_offset) →
        ascending_base (xs ++ [h])) := by
  refine ⟨?_, ?_, fun hfull => ?_⟩
  · unfold segment_set.add
    cases hl : xs.getLast? with
    | none => rfl
    | some back => simp [hgt back hl]
  · refine List.Chain'.append hno (List.chain'_singleton h) (fun x hx y hy => ?_)
    have hyh : y = h := by simpa using hy.symm
    subst hyh
    exact hgt x (by simpa using hx)
  · refine List.Chain'.append hasc (List.chain'_singleton h) (fun x hx y hy => ?_)
    have hyh : y = h := by simpa using hy.symm
    subst hyh
    have hx2 : xs.getLast? = some x := by simpa using hx
    have h1 := hgt x hx2
    have h2 := hfull x hx2
    show x.base_offset < y.base_offset
    omega

/-- C5, amended, on the scenario with a segment starting at offset 400. -/
theorem add_preserves_invariants_witness :
    (ascending_base scenario ∧ non_overlap scenario) ∧
      segment_set.add scenario ⟨400, 500, 40, 49, false⟩ =
        some (scenario ++ [⟨400, 500, 40, 49, false⟩]) ∧
      non_overlap (scenario ++ [⟨400, 500, 40, 49, false⟩]) ∧
      ascending_base (scenario ++ [⟨400, 500, 40, 49, false⟩]) :=
  have hasc : ascending_base scenario := by simp [ascending_base, scenario]
  have hno : non_overlap scenario := by simp [non_overlap, scenario]
  have hthm := add_preserves_invariants scenario ⟨400, 500, 40, 49, false⟩ hasc hno
    (fun back hb => by cases hb; decide)
  ⟨⟨hasc, hno⟩, hthm.1, hthm.2.1, hthm.2.2 (fun back hb => by cases hb; decide)⟩

/-- C7: on a non-empty collection `pop_front` yields the old sequence without its first
member and `pop_back` the old sequence without its last member; the size decreases by
exactly one and the remaining members keep their order. -/
theorem pop_front_pop_back (xs : List segment) (hne : xs ≠ []) :
    (∃ a ys, xs = a :: ys ∧ segment_set.pop_front xs = some ys ∧
      ys.length + 1 = xs.length) ∧
    (∃ ys b, xs = ys ++ [b] ∧ segment_set.pop_back xs = some ys ∧
      ys.length + 1 = xs.length) := by
  constructor
  · cases xs with
    | nil => exact absurd rfl hne
    | cons a ys => exact ⟨a, ys, rfl, rfl, rfl⟩
  · refine ⟨xs.dropLast, xs.getLast hne, (List.dropLast_append_getLast hne).symm, ?_, ?_⟩
    · have : xs.isEmpty = false := by
        cases xs with
        | nil => exact absurd rfl hne
        | cons a ys => rfl
      simp [segment_set.pop_back, this]
    · have := List.length_pos_of_ne_nil hne
      rw [List.length_dropLast]
      omega

/-- C7 on the scenario. -/
theorem pop_front_pop_back_witness :
    scenario ≠ [] ∧
      segment_set.pop_front scenario =
        some [⟨100, 199, 10, 19, false⟩, ⟨300, 399, 30, 39, false⟩] ∧
      segment_set.pop_back scenario =
        some [⟨0, 99, 0, 9, false⟩, ⟨100, 199, 10, 19, false⟩] :=
  have hne : scenario ≠ [] := by decide
  have hthm := pop_front_pop_back scenario hne
  ⟨hne, by
    obtain ⟨a, ys, hxs, hpop, _⟩ := hthm.1
    rw [hpop]
    cases hxs
    rfl, by
    obtain ⟨ys, b, hxs, hpop, _⟩ := hthm.2
    rw [hpop]
    have : ys ++ [b] =
        [⟨0, 99, 0, 9, false⟩, ⟨100, 199, 10, 19, false⟩] ++ [⟨300, 399, 30, 39, false⟩] :=
      hxs.symm
    rw [(List.append_inj' this rfl).1]⟩

/-! ## Construction -/

/-- Inserting a member keeps all members. -/
theorem ordered_insert_perm (s : segment) :
    ∀ (l : List segment), (ordered_insert s l).Perm (s :: l)
  | [] => List.Perm.refl _
  | t :: ts => by
    by_cases hlt : segment_ordering.seg_seg s t = true
    · simp [ordered_insert, hlt]
    · simp only [ordered_insert, hlt]
      exact ((ordered_insert_perm s ts).cons t).trans (List.Perm.swap s t ts)

/-- Inserting a member into a sequence ordered by `base_offset` keeps it ordered. -/
theorem ordered_insert_sorted (s : segment) :
    ∀ (l : List segment), l.Pairwise (fun a b => a.base_offset ≤ b.base_offset) →
      (ordered_insert s l).Pairwise (fun a b => a.base_offset ≤ b.base_offset)
  | [], _ => List.pairwise_singleton _ _
  | t :: ts, h => by
    have ht := List.pairwise_cons.mp h
    by_cases hlt : segment_ordering.seg_seg s t = true
    · have hst : s.base_offset < t.base_offset := of_decide_eq_true hlt
      simp only [ordered_insert, hlt, if_true]
      refine List.pairwise_cons.mpr ⟨fun b hb => ?_, h⟩
      rcases List.mem_cons.mp hb with rfl | hb
      · exact le_of_lt hst
      · exact le_trans (le_of_lt hst) (ht.1 b hb)
    · have hts : t.base_offset ≤ s.base_offset := by
        have : ¬ s.base_offset < t.base_offset := fun hc => hlt (decide_eq_true hc)
        omega
      simp only [ordered_insert, hlt]
      refine List.pairwise_cons.mpr ⟨fun b hb => ?_, ordered_insert_sorted s ts ht.2⟩
      rcases List.mem_cons.mp ((ordered_insert_perm s ts).mem_iff.mp hb) with rfl | hb
      · exact hts
      · exact ht.1 b hb

/-- The insertion loop of the sort keeps all members and keeps the prefix ordered. -/
theorem sort_loop_sorted_perm :
    ∀ (segs acc : List segment), acc.Pairwise (fun a b => a.base_offset ≤ b.base_offset) →
      (segs.foldl (fun acc s => ordered_insert s acc) acc).Perm (acc ++ segs) ∧
      (segs.foldl (fun acc s => ordered_insert s acc) acc).Pairwise
        (fun a b => a.base_offset ≤ b.base_offset)
  | [], acc, h => by simpa using h
  | s :: rest, acc, h => by
    obtain ⟨hp, hs⟩ := sort_loop_sorted_perm rest (ordered_insert s acc)
      (ordered_insert_sorted s acc h)
    refine ⟨?_, hs⟩
    simp only [List.foldl_cons]
    refine hp.trans ?_
    refine ((ordered_insert_perm s acc).append_right rest).trans ?_
    simpa using (@List.perm_middle _ s acc rest).symm

/-- The sort returns a permutation of its input ordered by `base_offset`. -/
theorem std_sort_sorted_perm (segs : List segment) :
    (std_sort segs).Perm segs ∧
      (std_sort segs).Pairwise (fun a b => a.base_offset ≤ b.base_offset) := by
  have := sort_loop_sorted_perm segs [] List.Pairwise.nil
  simpa [std_sort] using this

/-- A strictly ascending sequence is pairwise strictly ascending. -/
theorem ascending_base_pairwise (xs : List segment) (h : ascending_base xs) :
    xs.Pairwise (fun a b => a.base_offset < b.base_offset) := by
  haveI : IsTrans segment (fun a b => a.base_offset < b.base_offset) :=
    ⟨fun _ _ _ hab hbc => lt_trans hab hbc⟩
  exact List.chain'_iff_pairwise.mp h

/-- A permutation of a strictly ascending sequence that is ordered by `base_offset` is
strictly ascending. -/
theorem ascending_of_sorted_perm (valid r : List segment) (hv : ascending_base valid)
    (hp : r.Perm valid) (hs : r.Pairwise (fun a b => a.base_offset ≤ b.base_offset)) :
    r.Pairwise (fun a b => a.base_offset < b.base_offset) := by
  have hne : valid.Pairwise (fun a b => a.base_offset ≠ b.base_offset) :=
    (ascending_base_pairwise valid hv).imp (fun hab => ne_of_lt hab)
  have hne2 : r.Pairwise (fun a b => a.base_offset ≠ b.base_offset) :=
    (hp.pairwise_iff (fun hab => Ne.symm hab)).mpr hne
  exact (hs.and hne2).imp (fun hab => lt_of_le_of_ne hab.1 hab.2)

/-- C6: for every input sequence, construction yields a permutation of the input
ordered by non-decreasing `base_offset`; when the input is a permutation of a
sequence satisfying the invariants, the result is strictly ascending by
`base_offset`. -/
theorem construct_sorted (segs : List segment) :
    (segment_set.construct segs).Perm segs ∧
      (segment_set.construct segs).Pairwise (fun a b => a.base_offset ≤ b.base_offset) ∧
      ∀ valid, ascending_base valid → non_overlap valid → segs.Perm valid →
        ascending_base (segment_set.construct segs) := by
  obtain ⟨hp, hs⟩ := std_sort_sorted_perm segs
  refine ⟨hp, hs, fun valid hv _ hperm => ?_⟩
  exact (ascending_of_sorted_perm valid (std_sort segs) hv (hp.trans hperm) hs).chain'

/-- C6 on the scenario scanned in the order C, A, B. -/
theorem construct_sorted_witness :
    (ascending_base scenario ∧ non_overlap scenario) ∧
      segment_set.construct
        [⟨300, 399, 30, 39, false⟩, ⟨0, 99, 0, 9, false⟩, ⟨100, 199, 10, 19, false⟩] =
          scenario ∧
      ascending_base (segment_set.construct
        [⟨300, 399, 30, 39, false⟩, ⟨0, 99, 0, 9, false⟩, ⟨100, 199, 10, 19, false⟩]) :=
  have hasc : ascending_base scenario := by simp [ascending_base, scenario]
  have hno : non_overlap scenario := by simp [non_overlap, scenario]
  ⟨⟨hasc, hno⟩, by decide,
    (construct_sorted
      [⟨300, 399, 30, 39, false⟩, ⟨0, 99, 0, 9, false⟩, ⟨100, 199, 10, 19, false⟩]).2.2
      scenario hasc hno (by
        show List.Perm [_, _, _] [_, _, _]
        exact @List.perm_append_comm _ [_] [_, _])⟩

/-! ## The predecessor step -/

/-- The positions of a lookup on a non-empty container: the binary search returns
`it0`, the first candidate `c` is `it0` or the last position, and the result is `c`,
the predecessor of `c`, or `end()`. -/
theorem segments_lower_bound_candidates (xs : List segment) (needle : Needle)
    (hlen : xs.length ≠ 0) :
    ∃ it0 c p, std_lower_bound xs needle = some it0 ∧ it0 ≤ xs.length ∧
      first_candidate xs needle = some c ∧ c < xs.length ∧ c ≤ it0 ∧
      segments_lower_bound xs needle = some p ∧ (p = c ∨ p + 1 = c ∨ p = xs.length) := by
  obtain ⟨it0, hit0, hle, _⟩ := std_lower_bound_some xs needle
  obtain ⟨c, hc, hclt, hcle⟩ : ∃ c,
      (if it0 = xs.length then std_prev it0 else some it0) = some c ∧ c < xs.length ∧
        c ≤ it0 := by
    by_cases he : it0 = xs.length
    · exact ⟨it0 - 1, by simp [he, std_prev, hlen], by omega, by omega⟩
    · exact ⟨it0, by simp [he], by omega, le_refl _⟩
  have hfc : first_candidate xs needle = some c := by
    simp [first_candidate, hit0, hc]
  have hs1 : xs[c]? = some xs[c] := List.getElem?_eq_getElem hclt
  by_cases hin1 : needle_in_range xs[c] needle = true
  · exact ⟨it0, c, c, hit0, hle, hfc, hclt, hcle,
      by simp [segments_lower_bound, hlen, hit0, hc, hs1, hin1], Or.inl rfl⟩
  · by_cases hz : 0 < c
    · have hs2 : xs[c - 1]? = some xs[c - 1] := List.getElem?_eq_getElem (by omega)
      have hprev : std_prev c = some (c - 1) := by simp [std_prev]; omega
      by_cases hin2 : needle_in_range xs[c - 1] needle = true
      · exact ⟨it0, c, c - 1, hit0, hle, hfc, hclt, hcle,
          by simp [segments_lower_bound, hlen, hit0, hc, hs1, hin1, hz, hprev, hs2, hin2],
          Or.inr (Or.inl (by omega))⟩
      · exact ⟨it0, c, xs.length, hit0, hle, hfc, hclt, hcle,
          by simp [segments_lower_bound, hlen, hit0, hc, hs1, hin1, hz, hprev, hs2, hin2],
          Or.inr (Or.inr rfl)⟩
    · exact ⟨it0, c, xs.length, hit0, hle, hfc, hclt, hcle,
        by simp [segments_lower_bound, hlen, hit0, hc, hs1, hin1, hz],
        Or.inr (Or.inr rfl)⟩

/-- Under the invariants with `dirty_offset ≥ base_offset - 1` the container is
partitioned by every offset needle. -/
theorem partitioned_offset_of_invariants (xs : List segment) (o : Int)
    (hno : non_overlap xs) (hd : dirty_ge_pred_base xs) :
    partitioned xs (Needle.offset o) :=
  partitioned_of_key_mono (fun s => s.dirty_offset) o (Needle.offset o) (fun _ => rfl) xs
    (dirty_mono_of_invariants xs hno hd)

/-- A member that passes the offset containment check does not compare less than the
needle. -/
theorem seg_needle_false_of_in_range (s : segment) (o : Int)
    (h : needle_in_range s (Needle.offset o) = true) :
    segment_ordering.seg_needle s (Needle.offset o) = false := by
  cases he : s.empty
  · simp [needle_in_range, he] at h
    simp [segment_ordering.seg_needle, h.1]
  · simp [needle_in_range, he] at h

/-- The loop of the binary search moves its lower end only past a position whose
member compares less than the needle. -/
theorem lower_bound_loop_pred (xs : List segment) (needle : Needle) :
    ∀ (fuel first len p : Nat), lower_bound_loop xs needle fuel first len = some p →
      p = first ∨ (first < p ∧ comp_at xs needle (p - 1) = true) := by
  intro fuel
  induction fuel with
  | zero =>
    intro first len p h
    by_cases h0 : len = 0
    · simp [lower_bound_loop, h0] at h
      exact Or.inl h.symm
    · simp [lower_bound_loop, h0] at h
  | succ fuel ih =>
    intro first len p h
    by_cases h0 : len = 0
    · simp [lower_bound_loop, h0] at h
      exact Or.inl h.symm
    · cases hs : xs[first + len / 2]? with
      | none => simp [lower_bound_loop, h0, hs] at h
      | some s =>
        by_cases hcmp : segment_ordering.seg_needle s needle = true
        · simp only [lower_bound_loop, h0, hs, hcmp, if_true, if_false] at h
          right
          rcases ih _ _ p h with heq | ⟨hlt, hc⟩
          · refine ⟨by omega, ?_⟩
            have : p - 1 = first + len / 2 := by omega
            rw [this, comp_at_of_get hs]
            exact hcmp
          · exact ⟨by omega, hc⟩
        · simp only [lower_bound_loop, h0, hs, hcmp, if_false] at h
          exact ih _ _ p h

/-- The binary search returns `begin()` or a position right after a member that
compares less than the needle. -/
theorem std_lower_bound_pred (xs : List segment) (needle : Needle) (p : Nat)
    (h : std_lower_bound xs needle = some p) :
    p = 0 ∨ comp_at xs needle (p - 1) = true := by
  rcases lower_bound_loop_pred xs needle xs.length 0 xs.length p h with h0 | ⟨_, hc⟩
  · exact Or.inl h0
  · exact Or.inr hc

/-- On any container, when the offset lookup returns the predecessor of its first
candidate, the binary search had reached `end()` and `dirty_offset` decreases between
the last two members: the last one is below the offset, its predecessor is not. -/
theorem predecessor_hit_only_at_end (xs : List segment) (o : Int) (p : Nat)
    (hp : segment_set.lower_bound_offset xs o = some p)
    (hfc : first_candidate xs (Needle.offset o) = some (p + 1)) :
    std_lower_bound xs (Needle.offset o) = some xs.length ∧ p + 2 = xs.length ∧
      ∃ a b, xs[p]? = some a ∧ xs[p + 1]? = some b ∧
        b.dirty_offset < o ∧ o ≤ a.dirty_offset := by
  obtain ⟨it0, hit0, hle, _⟩ := std_lower_bound_some xs (Needle.offset o)
  obtain ⟨q, hq, hfound⟩ := segments_lower_bound_some xs (Needle.offset o)
  have hqp : q = p := by
    have : some q = some p := by rw [← hq]; exact hp
    exact Option.some.inj this
  subst hqp
  have hpred := std_lower_bound_pred xs (Needle.offset o) it0 hit0
  simp only [first_candidate, hit0, Option.some_bind] at hfc
  have hit : (it0 = xs.length ∧ q + 2 = xs.length) ∨ (it0 ≠ xs.length ∧ it0 = q + 1) := by
    by_cases he : it0 = xs.length
    · simp only [he, if_true, std_prev] at hfc
      split at hfc
      · cases hfc
      · have := Option.some.inj hfc
        exact Or.inl ⟨he, by omega⟩
    · simp only [he, if_false] at hfc
      exact Or.inr ⟨he, Option.some.inj hfc⟩
  have hqlt : q < xs.length := by omega
  obtain ⟨a, ha, hin⟩ : ∃ a, xs[q]? = some a ∧ needle_in_range a (Needle.offset o) = true := by
    rcases hfound with hend | h
    · omega
    · exact h
  have hanot := seg_needle_false_of_in_range a o hin
  rcases hit with ⟨he, hlen⟩ | ⟨_, he⟩
  · have hb : xs[q + 1]? = some xs[q + 1] := List.getElem?_eq_getElem (by omega)
    refine ⟨by rw [hit0, he], hlen, a, xs[q + 1], ha, hb, ?_, ?_⟩
    · rcases hpred with h0 | hc
      · omega
      · have hidx : it0 - 1 = q + 1 := by omega
        rw [hidx, comp_at_of_get hb] at hc
        simpa [segment_ordering.seg_needle] using hc
    · have : ¬ a.dirty_offset < o := by
        simpa [segment_ordering.seg_needle] using hanot
      omega
  · exfalso
    rcases hpred with h0 | hc
    · omega
    · have hidx : it0 - 1 = q := by omega
      rw [hidx, comp_at_of_get ha, hanot] at hc
      cases hc

/-- C11, as stated, fails: there is no collection satisfying the invariants with
`dirty_offset ≥ base_offset - 1` and no offset for which the first candidate fails
the containment check and `lower_bound(offset)` returns the candidate's predecessor
containing the offset. -/
theorem no_predecessor_hit_under_invariants :
    ¬ ∃ (xs : List segment) (o : Int) (c : Nat),
      ascending_base xs ∧ non_overlap xs ∧ dirty_ge_pred_base xs ∧
      first_candidate xs (Needle.offset o) = some (c + 1) ∧
      (∃ s, xs[c + 1]? = some s ∧ needle_in_range s (Needle.offset o) = false) ∧
      segment_set.lower_bound_offset xs o = some c ∧
      (∃ s, xs[c]? = some s ∧ s.base_offset ≤ o ∧ o ≤ s.dirty_offset) := by
  rintro ⟨xs, o, c, _, hno, hd, hfc, _, _, s, hs, _, hhi⟩
  obtain ⟨it0, hit0, hle, hpart⟩ := std_lower_bound_some xs (Needle.offset o)
  have hP := partitioned_offset_of_invariants xs o hno hd
  have hlt : c < it0 := by
    simp only [first_candidate, hit0, Option.some_bind] at hfc
    by_cases he : it0 = xs.length
    · simp only [he, if_true, std_prev] at hfc
      split at hfc
      · cases hfc
      · have := Option.some.inj hfc
        omega
    · simp only [he, if_false] at hfc
      have := Option.some.inj hfc
      omega
  have hc := (hpart hP).1 c hlt
  rw [comp_at_of_get hs] at hc
  have : s.dirty_offset < o := by
    simpa [segment_ordering.seg_needle] using hc
  omega

/-- C11, amended: in every collection satisfying the invariants with
`dirty_offset ≥ base_offset - 1`, `lower_bound(offset)` returns `end()` or the first
candidate it examines, never the candidate's predecessor.  On any collection, the
predecessor of the first candidate is returned only when the binary search reached
`end()` and the last member's `dirty_offset` is below the offset while its
predecessor's is not.  That happens on A=[0,99], B=[100,20] at offset 50, where the
first candidate B fails the containment check and A contains the offset. -/
theorem lower_bound_offset_first_candidate_or_end :
    (∀ (xs : List segment) (o : Int), ascending_base xs → non_overlap xs →
      dirty_ge_pred_base xs → ∀ p, segment_set.lower_bound_offset xs o = some p →
        p = xs.length ∨ first_candidate xs (Needle.offset o) = some p) ∧
    (∀ (xs : List segment) (o : Int) (p : Nat),
      segment_set.lower_bound_offset xs o = some p →
      first_candidate xs (Needle.offset o) = some (p + 1) →
        std_lower_bound xs (Needle.offset o) = some xs.length ∧ p + 2 = xs.length ∧
        ∃ a b, xs[p]? = some a ∧ xs[p + 1]? = some b ∧
          b.dirty_offset < o ∧ o ≤ a.dirty_offset) ∧
    (ascending_base stale_dirty ∧ non_overlap stale_dirty ∧
      first_candidate stale_dirty (Needle.offset 50) = some 1 ∧
      (∃ s, stale_dirty[1]? = some s ∧ needle_in_range s (Needle.offset 50) = false) ∧
      segment_set.lower_bound_offset stale_dirty 50 = some 0 ∧
      (∃ s, stale_dirty[0]? = some s ∧ s.base_offset ≤ 50 ∧ 50 ≤ s.dirty_offset)) := by
  refine ⟨fun xs o _ hno hd p hp => ?_,
    fun xs o p hp hfc => predecessor_hit_only_at_end xs o p hp hfc,
    by simp [ascending_base, stale_dirty], by simp [non_overlap, stale_dirty],
    by decide, ⟨_, rfl, by decide⟩, by decide, ⟨_, rfl, by decide⟩⟩
  by_cases hlen : xs.length = 0
  · left
    have : segment_set.lower_bound_offset xs o = some xs.length := by
      simp [segment_set.lower_bound_offset, segments_lower_bound, hlen]
    rw [this] at hp
    exact (Option.some.inj hp).symm
  · obtain ⟨it0, c, q, hit0, _, hfc, _, hcle, hq, hcase⟩ :=
      segments_lower_bound_candidates xs (Needle.offset o) hlen
    have hqp : q = p := by
      have : some q = some p := by rw [← hq]; exact hp
      exact Option.some.inj this
    subst hqp
    rcases hcase with h | h | h
    · right; rw [h]; exact hfc
    · exfalso
      obtain ⟨q2, hq2, hfound⟩ := segments_lower_bound_some xs (Needle.offset o)
      have hq2q : q2 = q := by
        have : some q2 = some q := by rw [← hq2]; exact hq
        exact Option.some.inj this
      subst hq2q
      rcases hfound with hend | ⟨s, hs, hin⟩
      · omega
      · obtain ⟨it1, hit1, _, hpart⟩ := std_lower_bound_some xs (Needle.offset o)
        have hit : it1 = it0 := by
          have : some it1 = some it0 := by rw [← hit1]; exact hit0
          exact Option.some.inj this
        subst hit
        have hc := (hpart (partitioned_offset_of_invariants xs o hno hd)).1 q2 (by omega)
        rw [comp_at_of_get hs, seg_needle_false_of_in_range s o hin] at hc
        cases hc
    · left; exact h

/-- C11, amended, on the scenario, where `lower_bound(150)` is the first candidate B,
and on A=[0,99], B=[100,20] at offset 50, where the binary search reaches `end()`. -/
theorem lower_bound_offset_first_candidate_or_end_witness :
    (ascending_base scenario ∧ non_overlap scenario ∧ dirty_ge_pred_base scenario) ∧
      segment_set.lower_bound_offset scenario 150 = some 1 ∧
      ((1 : Nat) = scenario.length ∨ first_candidate scenario (Needle.offset 150) = some 1) ∧
      segment_set.lower_bound_offset stale_dirty 50 = some 0 ∧
      first_candidate stale_dirty (Needle.offset 50) = some (0 + 1) ∧
      std_lower_bound stale_dirty (Needle.offset 50) = some stale_dirty.length :=
  have hasc : ascending_base scenario := by simp [ascending_base, scenario]
  have hno : non_overlap scenario := by simp [non_overlap, scenario]
  have hd : dirty_ge_pred_base scenario := by simp [dirty_ge_pred_base, scenario]
  have hp : segment_set.lower_bound_offset stale_dirty 50 = some 0 := by decide
  have hfc : first_candidate stale_dirty (Needle.offset 50) = some (0 + 1) := by decide
  ⟨⟨hasc, hno, hd⟩, by decide,
    lower_bound_offset_first_candidate_or_end.1 scenario 150 hasc hno hd 1 (by decide),
    hp, hfc, (lower_bound_offset_first_candidate_or_end.2.1 stale_dirty 50 0 hp hfc).1⟩

/-! ## Uniqueness of the containing segment -/

/-- In a collection satisfying the invariants, a member ends before every later member
starts. -/
theorem dirty_lt_base_of_lt (xs : List segment) (hasc : ascending_base xs)
    (hno : non_overlap xs) {i j : Nat} {a b : segment} (hij : i < j)
    (ha : xs[i]? = some a) (hb : xs[j]? = some b) : a.dirty_offset < b.base_offset := by
  have hj : j < xs.length := (List.getElem?_eq_some_iff.mp hb).1
  have hnext : xs[i + 1]? = some xs[i + 1] := List.getElem?_eq_getElem (by omega)
  have h1 : a.dirty_offset < xs[i + 1].base_offset := chain_adjacent hno ha hnext
  have h2 := key_mono_le (fun s => s.base_offset) xs (base_mono_of_ascending xs hasc)
    (by omega : i + 1 ≤ j) hnext hb
  simp only at h2
  omega

/-- In a collection satisfying the invariants, two positions whose members both contain
an offset are the same position. -/
theorem containing_position_unique (xs : List segment) (o : Int) (hasc : ascending_base xs)
    (hno : non_overlap xs) {i j : Nat} {a b : segment}
    (ha : xs[i]? = some a) (hb : xs[j]? = some b)
    (hao : a.base_offset ≤ o ∧ o ≤ a.dirty_offset)
    (hbo : b.base_offset ≤ o ∧ o ≤ b.dirty_offset) : i = j := by
  rcases Nat.lt_trichotomy i j with h | h | h
  · have := dirty_lt_base_of_lt xs hasc hno h ha hb
    omega
  · exact h
  · have := dirty_lt_base_of_lt xs hasc hno h hb ha
    omega

/-- C12: in every collection satisfying the invariants, for every offset at most one
member's closed interval `[base_offset, dirty_offset]` contains it, and a member found
by `lower_bound(offset)` contains the offset and is the only member that does. -/
theorem containing_segment_unique (xs : List segment) (o : Int)
    (hasc : ascending_base xs) (hno : non_overlap xs) :
    (∀ (i j : Nat) (a b : segment), xs[i]? = some a → xs[j]? = some b →
      (a.base_offset ≤ o ∧ o ≤ a.dirty_offset) →
      (b.base_offset ≤ o ∧ o ≤ b.dirty_offset) → i = j) ∧
    (∀ (p : Nat) (s : segment), segment_set.lower_bound_offset xs o = some p →
      xs[p]? = some s →
      (s.empty = false ∧ s.base_offset ≤ o ∧ o ≤ s.dirty_offset) ∧
      ∀ (j : Nat) (b : segment), xs[j]? = some b →
        (b.base_offset ≤ o ∧ o ≤ b.dirty_offset) → j = p) := by
  refine ⟨fun i j a b ha hb hao hbo => containing_position_unique xs o hasc hno ha hb hao hbo,
    fun p s hp hs => ?_⟩
  obtain ⟨q, hq, hfound⟩ := segments_lower_bound_some xs (Needle.offset o)
  have hqp : q = p := by
    have : some q = some p := by rw [← hq]; exact hp
    exact Option.some.inj this
  subst hqp
  have hlt : q < xs.length := (List.getElem?_eq_some_iff.mp hs).1
  rcases hfound with hend | ⟨s2, hs2, hin⟩
  · omega
  · have hss : s2 = s := by
      have : some s2 = some s := by rw [← hs2]; exact hs
      exact Option.some.inj this
    subst hss
    have hcont : s2.empty = false ∧ s2.base_offset ≤ o ∧ o ≤ s2.dirty_offset := by
      cases he : s2.empty
      · simp [needle_in_range, he] at hin
        exact ⟨rfl, hin.2, hin.1⟩
      · simp [needle_in_range, he] at hin
    exact ⟨hcont, fun j b hb hbo =>
      containing_position_unique xs o hasc hno hb hs ⟨hbo.1, hbo.2⟩ ⟨hcont.2.1, hcont.2.2⟩⟩

/-- C12 on the scenario: `lower_bound(150)` finds B and no other position contains
150. -/
theorem containing_segment_unique_witness :
    (ascending_base scenario ∧ non_overlap scenario) ∧
      segment_set.lower_bound_offset scenario 150 = some 1 ∧
      ∀ (j : Nat) (b : segment), scenario[j]? = some b →
        (b.base_offset ≤ 150 ∧ 150 ≤ b.dirty_offset) → j = 1 :=
  have hasc : ascending_base scenario := by simp [ascending_base, scenario]
  have hno : non_overlap scenario := by simp [non_overlap, scenario]
  ⟨⟨hasc, hno⟩, by decide,
    ((containing_segment_unique scenario 150 hasc hno).2 1 ⟨100, 199, 10, 19, false⟩
      (by decide) rfl).2⟩

/-! ## Consistency of the needle comparisons -/

/-- On a container whose comparison key does not decrease, the binary search returns
the first position whose key is not below the needle: every earlier key is below it,
and the key at the returned position, if there is one, is not. -/
theorem std_lower_bound_first_ge (hi : segment → Int) (v : Int) (needle : Needle)
    (hcmp : ∀ s, segment_ordering.seg_needle s needle = decide (hi s < v))
    (xs : List segment) (hM : xs.Chain' (fun a b => hi a ≤ hi b)) :
    ∃ p, std_lower_bound xs needle = some p ∧ p ≤ xs.length ∧
      (∀ (i : Nat) (s : segment), i < p → xs[i]? = some s → hi s < v) ∧
      (∀ s : segment, xs[p]? = some s → v ≤ hi s) := by
  obtain ⟨p, hp, hle, hpart⟩ := std_lower_bound_some xs needle
  obtain ⟨h1, h2⟩ := hpart (partitioned_of_key_mono hi v needle hcmp xs hM)
  refine ⟨p, hp, hle, fun i s hi_lt hs => ?_, fun s hs => ?_⟩
  · have := h1 i hi_lt
    rw [comp_at_of_get hs, hcmp] at this
    exact of_decide_eq_true this
  · have hlt : p < xs.length := (List.getElem?_eq_some_iff.mp hs).1
    have := h2 hlt
    rw [comp_at_of_get hs, hcmp] at this
    exact not_lt.mp (of_decide_eq_false this)

/-- C13: in every collection satisfying the invariants in which every member has
`dirty_offset ≥ base_offset - 1`, `dirty_offset` does not decrease along the
collection, the members with `dirty_offset < needle` form a prefix, and the binary
search returns the first member whose `dirty_offset ≥ needle`. -/
theorem offset_comparison_consistent (xs : List segment) (o : Int)
    (_hasc : ascending_base xs) (hno : non_overlap xs) (hd : dirty_ge_pred_base xs) :
    xs.Chain' (fun a b => a.dirty_offset ≤ b.dirty_offset) ∧
    (∀ (i j : Nat) (a b : segment), i ≤ j → xs[i]? = some a → xs[j]? = some b →
      b.dirty_offset < o → a.dirty_offset < o) ∧
    ∃ p, std_lower_bound xs (Needle.offset o) = some p ∧ p ≤ xs.length ∧
      (∀ (i : Nat) (s : segment), i < p → xs[i]? = some s → s.dirty_offset < o) ∧
      (∀ s : segment, xs[p]? = some s → o ≤ s.dirty_offset) := by
  have hM := dirty_mono_of_invariants xs hno hd
  refine ⟨hM, fun i j a b hij ha hb hlt => ?_,
    std_lower_bound_first_ge (fun s => s.dirty_offset) o (Needle.offset o) (fun _ => rfl) xs hM⟩
  have := key_mono_le (fun s => s.dirty_offset) xs hM hij ha hb
  simp only at this
  omega

/-- C13 on the scenario with the needle 150: the binary search returns B. -/
theorem offset_comparison_consistent_witness :
    (ascending_base scenario ∧ non_overlap scenario ∧ dirty_ge_pred_base scenario) ∧
      std_lower_bound scenario (Needle.offset 150) = some 1 ∧
      ∃ p, std_lower_bound scenario (Needle.offset 150) = some p ∧ p ≤ scenario.length ∧
        (∀ (i : Nat) (s : segment), i < p → scenario[i]? = some s → s.dirty_offset < 150) ∧
        (∀ s : segment, scenario[p]? = some s → 150 ≤ s.dirty_offset) :=
  have hasc : ascending_base scenario := by simp [ascending_base, scenario]
  have hno : non_overlap scenario := by simp [non_overlap, scenario]
  have hd : dirty_ge_pred_base scenario := by simp [dirty_ge_pred_base, scenario]
  ⟨⟨hasc, hno, hd⟩, by decide, (offset_comparison_consistent scenario 150 hasc hno hd).2.2⟩

/-- C14, as stated, fails: the collection A=[0,99]/ts[50,60], B=[100,199]/ts[10,20]
satisfies the collection invariants, yet for the needle 55 the second member has
`max_timestamp < 55` and the first has not, and the timestamp binary search returns
`end()` although the first member has `max_timestamp ≥ 55`. -/
theorem timestamp_comparison_not_consistent :
    ascending_base backwards_timestamps ∧ non_overlap backwards_timestamps ∧
      dirty_ge_pred_base backwards_timestamps ∧
      (∃ a b, backwards_timestamps[0]? = some a ∧ backwards_timestamps[1]? = some b ∧
        b.max_timestamp < 55 ∧ ¬ a.max_timestamp < 55) ∧
      std_lower_bound backwards_timestamps (Needle.timestamp 55) = some 2 ∧
      segment_set.lower_bound_timestamp backwards_timestamps 55 =
        some backwards_timestamps.length ∧
      (∃ a, backwards_timestamps[0]? = some a ∧ 55 ≤ a.max_timestamp) :=
  ⟨by simp [ascending_base, backwards_timestamps],
    by simp [non_overlap, backwards_timestamps],
    by simp [dirty_ge_pred_base, backwards_timestamps],
    ⟨_, _, rfl, rfl, by decide, by decide⟩, by decide, by decide, ⟨_, rfl, by decide⟩⟩

/-- C14, amended: in every collection whose `max_timestamp` does not decrease along
the collection, for every timestamp needle the members with `max_timestamp < needle`
form a prefix, and the timestamp binary search returns the first member whose
`max_timestamp ≥ needle`. -/
theorem timestamp_comparison_consistent (xs : List segment) (t : Int)
    (hmono : max_timestamp_non_decreasing xs) :
    (∀ (i j : Nat) (a b : segment), i ≤ j → xs[i]? = some a → xs[j]? = some b →
      b.max_timestamp < t → a.max_timestamp < t) ∧
    ∃ p, std_lower_bound xs (Needle.timestamp t) = some p ∧ p ≤ xs.length ∧
      (∀ (i : Nat) (s : segment), i < p → xs[i]? = some s → s.max_timestamp < t) ∧
      (∀ s : segment, xs[p]? = some s → t ≤ s.max_timestamp) := by
  refine ⟨fun i j a b hij ha hb hlt => ?_,
    std_lower_bound_first_ge (fun s => s.max_timestamp) t (Needle.timestamp t)
      (fun _ => rfl) xs hmono⟩
  have := key_mono_le (fun s => s.max_timestamp) xs hmono hij ha hb
  simp only at this
  omega

/-- C14, amended, on the scenario with the needle 25: the binary search returns C. -/
theorem timestamp_comparison_consistent_witness :
    max_timestamp_non_decreasing scenario ∧
      std_lower_bound scenario (Needle.timestamp 25) = some 2 ∧
      ∃ p, std_lower_bound scenario (Needle.timestamp 25) = some p ∧ p ≤ scenario.length ∧
        (∀ (i : Nat) (s : segment), i < p → scenario[i]? = some s → s.max_timestamp < 25) ∧
        (∀ s : segment, scenario[p]? = some s → 25 ≤ s.max_timestamp) :=
  have hmono : max_timestamp_non_decreasing scenario := by
    simp [max_timestamp_non_decreasing, scenario]
  ⟨hmono, by decide, (timestamp_comparison_consistent scenario 25 hmono).2⟩

/-- C16: on a collection whose `max_timestamp` does not decrease, the mutable
`lower_bound(t)` returns the earliest member whose `max_timestamp ≥ t`, whatever its
`empty()` and `base_timestamp`, and returns `end()` exactly when every member has
`max_timestamp < t`. -/
theorem lower_bound_timestamp_earliest (xs : List segment) (t : Int)
    (hmono : max_timestamp_non_decreasing xs) :
    ∃ p, segment_set.lower_bound_timestamp xs t = some p ∧ p ≤ xs.length ∧
      (∀ (i : Nat) (s : segment), i < p → xs[i]? = some s → s.max_timestamp < t) ∧
      (∀ s : segment, xs[p]? = some s → t ≤ s.max_timestamp) ∧
      (p = xs.length ↔ ∀ s ∈ xs, s.max_timestamp < t) := by
  obtain ⟨p, hp, hle, hbelow, hat⟩ :=
    std_lower_bound_first_ge (fun s => s.max_timestamp) t (Needle.timestamp t)
      (fun _ => rfl) xs hmono
  refine ⟨p, hp, hle, hbelow, hat, fun hend s hs => ?_, fun hall => ?_⟩
  · obtain ⟨i, hi⟩ := List.mem_iff_getElem?.mp hs
    have hlt : i < xs.length := (List.getElem?_eq_some_iff.mp hi).1
    exact hbelow i s (by omega) hi
  · by_contra hne
    have hlt : p < xs.length := by omega
    have hs : xs[p]? = some xs[p] := List.getElem?_eq_getElem hlt
    have h1 := hat xs[p] hs
    have h2 := hall xs[p] (List.getElem?_mem hs)
    simp only at h1
    omega

/-- C16 on a collection whose first member has no records and starts at timestamp 40:
for the needle 30 the mutable `lower_bound` returns that member, and for the needle 99
it returns `end()`. -/
theorem lower_bound_timestamp_earliest_witness :
    max_timestamp_non_decreasing empty_head ∧
      segment_set.lower_bound_timestamp empty_head 30 = some 0 ∧
      segment_set.lower_bound_timestamp empty_head 99 = some 2 ∧
      ∃ p, segment_set.lower_bound_timestamp empty_head 30 = some p ∧ p ≤ empty_head.length ∧
        (∀ (i : Nat) (s : segment), i < p → empty_head[i]? = some s → s.max_timestamp < 30) ∧
        (∀ s : segment, empty_head[p]? = some s → 30 ≤ s.max_timestamp) ∧
        (p = empty_head.length ↔ ∀ s ∈ empty_head, s.max_timestamp < 30) :=
  have hmono : max_timestamp_non_decreasing empty_head := by
    simp [max_timestamp_non_decreasing, empty_head]
  ⟨hmono, by decide, by decide, lower_bound_timestamp_earliest empty_head 30 hmono⟩

/-! ## Removal keeps the invariants -/

/-- C15: on a non-empty collection satisfying both invariants, the collection after
`pop_front` and the collection after `pop_back` each satisfy both invariants. -/
theorem pop_preserves_invariants (xs : List segment) (hne : xs ≠ [])
    (hasc : ascending_base xs) (hno : non_overlap xs) :
    (∃ ys, segment_set.pop_front xs = some ys ∧ ascending_base ys ∧ non_overlap ys) ∧
    (∃ ys, segment_set.pop_back xs = some ys ∧ ascending_base ys ∧ non_overlap ys) := by
  constructor
  · cases xs with
    | nil => exact absurd rfl hne
    | cons a ys =>
      exact ⟨ys, rfl, List.Chain'.tail (l := a :: ys) hasc,
        List.Chain'.tail (l := a :: ys) hno⟩
  · refine ⟨xs.dropLast, ?_, List.Chain'.init hasc, List.Chain'.init hno⟩
    have : xs.isEmpty = false := by
      cases xs with
      | nil => exact absurd rfl hne
      | cons a ys => rfl
    simp [segment_set.pop_back, this]

/-- C15 on the scenario. -/
theorem pop_preserves_invariants_witness :
    (scenario ≠ [] ∧ ascending_base scenario ∧ non_overlap scenario) ∧
      (∃ ys, segment_set.pop_front scenario = some ys ∧ ascending_base ys ∧
        non_overlap ys) ∧
      (∃ ys, segment_set.pop_back scenario = some ys ∧ ascending_base ys ∧ non_overlap ys) :=
  have hne : scenario ≠ [] := by decide
  have hasc : ascending_base scenario := by simp [ascending_base, scenario]
  have hno : non_overlap scenario := by simp [non_overlap, scenario]
  ⟨⟨hne, hasc, hno⟩, pop_preserves_invariants scenario hne hasc hno⟩

/-! ## Construction is canonical -/

/-- Sorting a permutation of a strictly ascending sequence returns that sequence. -/
theorem std_sort_eq_of_perm (xs p : List segment) (hasc : ascending_base xs)
    (hperm : p.Perm xs) : std_sort p = xs := by
  obtain ⟨hp, hs⟩ := std_sort_sorted_perm p
  have h1 := ascending_of_sorted_perm xs (std_sort p) hasc (hp.trans hperm) hs
  have h2 := ascending_base_pairwise xs hasc
  haveI : IsAntisymm segment (fun a b => a.base_offset < b.base_offset) :=
    ⟨fun _ _ hab hba => absurd hab (not_lt_of_lt hba)⟩
  exact List.eq_of_perm_of_sorted (hp.trans hperm) h1 h2

/-- C17: for every sequence `xs` satisfying both invariants and every permutation `p`
of `xs`, constructing the collection from `p` yields exactly `xs`; the constructed
collection satisfies both invariants and constructing from it again changes nothing. -/
theorem construct_canonical (xs p : List segment) (hasc : ascending_base xs)
    (hno : non_overlap xs) (hperm : p.Perm xs) :
    segment_set.construct p = xs ∧
      ascending_base (segment_set.construct p) ∧ non_overlap (segment_set.construct p) ∧
      segment_set.construct (segment_set.construct p) = segment_set.construct p := by
  have h1 : segment_set.construct p = xs := std_sort_eq_of_perm xs p hasc hperm
  have h2 : segment_set.construct xs = xs := std_sort_eq_of_perm xs xs hasc (List.Perm.refl _)
  rw [h1]
  exact ⟨rfl, hasc, hno, h2⟩

/-- C17 on the scenario scanned in the order B, C, A. -/
theorem construct_canonical_witness :
    (ascending_base scenario ∧ non_overlap scenario) ∧
      segment_set.construct
        [⟨100, 199, 10, 19, false⟩, ⟨300, 399, 30, 39, false⟩, ⟨0, 99, 0, 9, false⟩] =
          scenario :=
  have hasc : ascending_base scenario := by simp [ascending_base, scenario]
  have hno : non_overlap scenario := by simp [non_overlap, scenario]
  ⟨⟨hasc, hno⟩,
    (construct_canonical scenario
      [⟨100, 199, 10, 19, false⟩, ⟨300, 399, 30, 39, false⟩, ⟨0, 99, 0, 9, false⟩]
      hasc hno (by
        show List.Perm [_, _, _] [_, _, _]
        exact @List.perm_append_comm _ [_, _] [_])).1⟩

/-! ## Rendering -/

/-- Streaming the members one after the other appends their concatenation. -/
theorem render_loop (render_handle : segment → String) :
    ∀ (s : List segment) (o : String),
      s.foldl (fun o p => o ++ render_handle p) o =
        o ++ segment_set.members_text render_handle s
  | [], o => by simp [segment_set.members_text]
  | p :: rest, o => by
    simp only [List.foldl_cons, segment_set.members_text]
    rw [render_loop render_handle rest (o ++ render_handle p), String.append_assoc]

/-- C18: the rendering of a collection is the text `{size: `, the decimal number of
members, `, [`, the renderings of the members in collection order with no separator,
and `]}`; for the empty collection it is `{size: 0, []}`. -/
theorem render_format (render_handle : segment → String) (s : List segment) :
    segment_set.render render_handle s =
      "\x7bsize: " ++ Nat.repr s.length ++ ", [" ++
        segment_set.members_text render_handle s ++ "]\x7d" ∧
    segment_set.render render_handle [] = "\x7bsize: 0, []\x7d" := by
  refine ⟨?_, rfl⟩
  simp only [segment_set.render]
  rw [render_loop]

end storage

namespace s3

/-! ## Error outcome codes -/

/-- C19: `make_error_code` sends `none`, `retry`, `retry_slowdown`, `fail`, `notfound`
to the distinct values 0, 1, 2, 3, 4, so the code is 0 exactly for `none`; the
category's message is a distinct fixed text for each of those five values and
`Undefined error_outcome encountered` for every other integer. -/
theorem error_outcome_codes :
    ((make_error_code error_outcome.none).value = 0 ∧
      (make_error_code error_outcome.retry).value = 1 ∧
      (make_error_code error_outcome.retry_slowdown).value = 2 ∧
      (make_error_code error_outcome.fail).value = 3 ∧
      (make_error_code error_outcome.notfound).value = 4) ∧
    (∀ e : error_outcome, (make_error_code e).value = 0 ↔ e = error_outcome.none) ∧
    (∀ e1 e2 : error_outcome,
      (make_error_code e1).value = (make_error_code e2).value ↔ e1 = e2) ∧
    (error_outcome_category.message 0 = "No error" ∧
      error_outcome_category.message 1 = "Retryable error" ∧
      error_outcome_category.message 2 = "Cloud service asked us to slow down" ∧
      error_outcome_category.message 3 = "Non retriable error" ∧
      error_outcome_category.message 4 = "Key not found error") ∧
    [error_outcome_category.message 0, error_outcome_category.message 1,
      error_outcome_category.message 2, error_outcome_category.message 3,
      error_outcome_category.message 4,
      "Undefined error_outcome encountered"].Nodup ∧
    (∀ c : Int, (c < 0 ∨ 4 < c) →
      error_outcome_category.message c = "Undefined error_outcome encountered") := by
  refine ⟨by decide, fun e => by cases e <;> decide,
    fun e1 e2 => by cases e1 <;> cases e2 <;> decide, by decide, by decide, fun c hc => ?_⟩
  have h0 : c ≠ 0 := by omega
  have h1 : c ≠ 1 := by omega
  have h2 : c ≠ 2 := by omega
  have h3 : c ≠ 3 := by omega
  have h4 : c ≠ 4 := by omega
  simp [error_outcome_category.message, error_outcome.to_int, h0, h1, h2, h3, h4]

/-- C19 at the values 3 and 7. -/
theorem error_outcome_codes_witness :
    (make_error_code error_outcome.fail).value = 3 ∧
      error_outcome_category.message 3 = "Non retriable error" ∧
      error_outcome_category.message 7 = "Undefined error_outcome encountered" :=
  ⟨error_outcome_codes.1.2.2.2.1, error_outcome_codes.2.2.2.1.2.2.2.1,
    error_outcome_codes.2.2.2.2.2 7 (by decide)⟩

end s3
